import Mathlib

/-!
Verification development for the mgrid cell-width field synthesis engine
and its command-line front end.

The field synthesis core (regions, transition function, field combiner,
field synthesizer) is modelled from the specification; the command-line
behaviour is embedded from `src/mgrid/cli.py`.  Resolutions, distances and
coordinates are modelled as rationals; geodesic primitives (great-circle
distance, point-to-geodesic-segment distance, point-in-polygon membership)
are trigonometric externals and are passed in as explicit function
parameters collected in a `Geo` record.
-/

namespace Mgrid

/-- A point on the sphere given by latitude and longitude (degrees). -/
structure Pt where
  lat : ℚ
  lon : ℚ
deriving DecidableEq, Repr

/-- Modelled from the spec: the smoothstep-class interpolant used by the
transition function (`3t^2 - 2t^3`), chosen because the spec requires a
continuous, monotone interpolation with zero derivative at both endpoints. -/
def smoothstep (t : ℚ) : ℚ := 3 * t ^ 2 - 2 * t ^ 3

/-- Modelled from the spec (§4.1): the transition function.  Returns
`inner` when `d ≤ 0`, `outer` when `d ≥ width` (with the `d ≤ 0` branch
taking precedence), and otherwise interpolates with `smoothstep`. -/
def transition (d inner outer width : ℚ) : ℚ :=
  if d ≤ 0 then inner
  else if width ≤ d then outer
  else inner + (outer - inner) * smoothstep (d / width)

/-- Modelled from the spec (§3): a circular refinement region. -/
structure CircularRegion where
  name : String
  resolution : ℚ
  transition_width : ℚ
  center : Pt
  radius : ℚ
deriving DecidableEq, Repr

/-- Modelled from the spec (§3): a polygonal refinement region with an
implicitly closed vertex ring. -/
structure PolygonRegion where
  name : String
  resolution : ℚ
  transition_width : ℚ
  vertices : List Pt
deriving DecidableEq, Repr

/-- Modelled from the spec (§9): the closed tagged variant of regions. -/
inductive Region where
  | circle (c : CircularRegion)
  | polygon (p : PolygonRegion)
deriving DecidableEq, Repr

/-- Common accessor: a region's name. -/
def Region.name : Region → String
  | .circle c => c.name
  | .polygon p => p.name

/-- Common accessor: a region's target resolution. -/
def Region.resolution : Region → ℚ
  | .circle c => c.resolution
  | .polygon p => p.resolution

/-- Common accessor: a region's transition width. -/
def Region.transition_width : Region → ℚ
  | .circle c => c.transition_width
  | .polygon p => p.transition_width

/-- Modelled from the spec (§4.2, §4.3): the geodesic primitives the core
depends on.  `gdist` is the great-circle distance between two points in
kilometers, `edgeDist` the minimum geodesic distance from a point to a
geodesic edge segment, and `inside` the point-in-polygon membership test
(winding or crossing number).  All three are trigonometric and live outside
the rational model, so they are supplied as parameters. -/
structure Geo where
  gdist : Pt → Pt → ℚ
  edgeDist : Pt → Pt → Pt → ℚ
  inside : Pt → List Pt → Bool

/-- The edge list of an implicitly closed vertex ring: consecutive vertex
pairs plus the closing edge from the last vertex back to the first. -/
def ringEdges : List Pt → List (Pt × Pt)
  | [] => []
  | v :: vs => (v :: vs).zip (vs ++ [v])

/-- Minimum of a list of rationals (0 for the empty list, which the valid
polygons never produce). -/
def minList : List ℚ → ℚ
  | [] => 0
  | x :: xs => xs.foldl min x

/-- Modelled from the spec (§4.3 step 2): minimum geodesic distance from a
query point to any edge segment of the ring. -/
def boundaryDistance (geo : Geo) (vs : List Pt) (p : Pt) : ℚ :=
  minList ((ringEdges vs).map (fun e => geo.edgeDist p e.1 e.2))

/-- Modelled from the spec (§4.2, §4.3): the signed distance from a query
point to a region's core boundary; negative or zero means inside the core. -/
def Region.signedDistance (geo : Geo) : Region → Pt → ℚ
  | .circle c, p => geo.gdist p c.center - c.radius
  | .polygon pg, p =>
      if geo.inside p pg.vertices then -(boundaryDistance geo pg.vertices p)
      else boundaryDistance geo pg.vertices p

/-- Modelled from the spec (§4.2, §4.3): a region's resolution contribution
at a point, obtained by feeding the signed distance to the transition
function; `outer` is the resolution prevailing outside the region. -/
def Region.contribution (geo : Geo) (outer : ℚ) (r : Region) (p : Pt) : ℚ :=
  transition (r.signedDistance geo p) r.resolution outer r.transition_width

/-- Modelled from the spec (§4.4): the field combiner.  Starting from the
background resolution, each region whose influence zone reaches the point
(`signed_distance < transition_width`) contributes via `min`; other regions
contribute no constraint. -/
def combineField (geo : Geo) (bg : ℚ) (rs : List Region) (p : Pt) : ℚ :=
  rs.foldl
    (fun acc r =>
      if r.signedDistance geo p < r.transition_width then
        min acc (r.contribution geo bg p)
      else acc)
    bg

/-- Modelled from the spec (§3, §6): the validated configuration consumed
by the field synthesizer. -/
structure Config where
  background_resolution : ℚ
  grid_density : ℚ
  regions : List Region
deriving Repr

/-- Modelled from the spec (§4.5, §7): the error raised when a region's
resolution or transition width violates the §3 invariants; it carries the
offending region's name. -/
inductive ConfigurationError where
  | invalidResolutionParameters (name : String)
deriving DecidableEq, Repr

/-- A region violates the §3 resolution invariants when its resolution is
non-positive or its transition width is negative. -/
def Region.invalidParams (r : Region) : Bool :=
  decide (r.resolution ≤ 0 ∨ r.transition_width < 0)

/-- Modelled from the spec (§4.5, §7): eager validation of the region list,
returning the first offending region if any. -/
def findInvalidRegion (rs : List Region) : Option Region :=
  rs.find? Region.invalidParams

/-- Modelled from the spec (§4.5): the field synthesizer.  It validates all
regions before any grid evaluation; on success it evaluates the field
combiner at every point of the sampling lattice (outer product of the
latitude and longitude axes) and returns the full 2-D resolution field, on
failure it returns a `ConfigurationError` naming the offending region and
no partial field. -/
def synthesizeField (geo : Geo) (cfg : Config) (lats lons : List ℚ) :
    Except ConfigurationError (List (List ℚ)) :=
  match findInvalidRegion cfg.regions with
  | some r => .error (.invalidResolutionParameters r.name)
  | none =>
      .ok (lats.map (fun la =>
        lons.map (fun lo => combineField geo cfg.background_resolution cfg.regions ⟨la, lo⟩)))

/-- A region entry of the JSON configuration as read by the CLI
(`src/mgrid/cli.py`): its `type` string, polygon vertex list, optional
center and optional radius; an absent `type` key is modelled as the empty
string (it compares unequal to both "polygon" and "circle", as in the
source). -/
structure RegionCfg where
  type : String
  polygon : List (ℚ × ℚ)
  center : Option (ℚ × ℚ)
  radius : Option ℚ
deriving DecidableEq, Repr

/-- The regional-cut specification the CLI builds before writing the
`.pts` file: either a custom polygon cut with an optional inside point, or
a circular cut with an optional inside point and a radius in meters. -/
inductive CutSpec where
  | custom (polygon : List (ℚ × ℚ)) (inside_point : Option (ℚ × ℚ))
  | circle (inside_point : Option (ℚ × ℚ)) (radius : ℚ)
deriving DecidableEq, Repr

/-- The centroid the CLI computes for a polygon region: the arithmetic mean
of the vertex latitudes and of the vertex longitudes. -/
def centroid (poly : List (ℚ × ℚ)) : ℚ × ℚ :=
  ((poly.map Prod.fst).sum / (poly.length : ℚ),
   (poly.map Prod.snd).sum / (poly.length : ℚ))

/-- The cut the CLI builds from a polygon region (`cli.py` lines 227–241):
the region's vertex list with its centroid as inside point; with an empty
vertex list no inside point is set. -/
def polygonCut (r : RegionCfg) : CutSpec :=
  CutSpec.custom r.polygon (if r.polygon.isEmpty then none else some (centroid r.polygon))

/-- The cut the CLI builds from a circle region (`cli.py` lines 242–247):
the region's center as inside point and its radius converted from
kilometers to meters, defaulting to 100 km when absent. -/
def circleCut (r : RegionCfg) : CutSpec :=
  CutSpec.circle r.center ((r.radius.getD 100) * 1000)

/-- The CLI's region scan (`cli.py` lines 226–247): the first polygon
region wins and stops the scan; otherwise each circle region overwrites the
accumulator, so the last circle wins; other region types are skipped. -/
def inferCutLoop : Option CutSpec → List RegionCfg → Option CutSpec
  | acc, [] => acc
  | acc, r :: rs =>
      if r.type = "polygon" then some (polygonCut r)
      else if r.type = "circle" then inferCutLoop (some (circleCut r)) rs
      else inferCutLoop acc rs

/-- The regional cut the CLI infers from the regions list when the
configuration has no (or an empty) `regional_cut` entry. -/
def inferRegionalCut (regions : List RegionCfg) : Option CutSpec :=
  inferCutLoop none regions

/-- The parts of the loaded JSON configuration `_cmd_run` consults for the
regional-cut step: an optional `static_file`, an optional (truthy)
`regional_cut` entry, and the regions list. -/
structure RunConfig where
  static_file : Option String
  regional_cut : Option CutSpec
  regions : List RegionCfg

/-- The `run` subcommand's parsed arguments. -/
structure RunArgs where
  config : String
  static_file : Option String

/-- The filesystem facts `_cmd_run` observes: whether the configuration
path exists and whether a given static file path exists. -/
structure RunWorld where
  configExists : Bool
  staticExists : String → Bool

/-- The exceptions `_cmd_run` can raise along the regional-cut path. -/
inductive CliError where
  | fileNotFound (path : String)
  | valueError
deriving DecidableEq, Repr

/-- The control flow of `_cmd_run` (`cli.py` lines 142–253) along the
checks the claims concern, with the external collaborators (JIGSAW mesh
generation, `.pts` writing, regional cutting, partitioning) elided: the
configuration path is checked before the configuration is read; the static
file (command-line argument first, else the configuration entry) is
checked for existence; then the regional cut is taken from the
configuration or inferred from the regions, and its absence is a
`ValueError`.  Returns the chosen cut, or `none` when no static file is
supplied. -/
def cmdRun (w : RunWorld) (args : RunArgs) (cfg : RunConfig) :
    Except CliError (Option CutSpec) :=
  if ¬ w.configExists then Except.error (CliError.fileNotFound args.config)
  else
    match args.static_file <|> cfg.static_file with
    | none => Except.ok none
    | some s =>
        if ¬ w.staticExists s then Except.error (CliError.fileNotFound s)
        else
          match cfg.regional_cut <|> inferRegionalCut cfg.regions with
          | none => Except.error CliError.valueError
          | some cut => Except.ok (some cut)

/-- Rewriting the combiner fold as a plain `min`-fold over the applicable
contributions. -/
lemma foldl_combine (q : Region → Bool) (c : Region → ℚ) :
    ∀ (rs : List Region) (acc : ℚ),
      rs.foldl (fun a r => if q r then min a (c r) else a) acc =
        ((rs.filter q).map c).foldl min acc := by
  intro rs
  induction rs with
  | nil => intro acc; rfl
  | cons r rs ih =>
      intro acc
      by_cases hq : q r
      · simp [List.foldl, List.filter, hq, ih]
      · simp [List.foldl, List.filter, hq, ih]

/-- A `min`-fold never exceeds its initial accumulator. -/
lemma foldl_min_le_init : ∀ (l : List ℚ) (a : ℚ), l.foldl min a ≤ a := by
  intro l
  induction l with
  | nil => intro a; exact le_refl a
  | cons x xs ih =>
      intro a
      calc (x :: xs).foldl min a = xs.foldl min (min a x) := rfl
        _ ≤ min a x := ih (min a x)
        _ ≤ a := min_le_left _ _

/-- A lower bound of the initial accumulator and of every list element is a
lower bound of the `min`-fold. -/
lemma le_foldl_min : ∀ (l : List ℚ) (a m : ℚ), m ≤ a → (∀ x ∈ l, m ≤ x) →
    m ≤ l.foldl min a := by
  intro l
  induction l with
  | nil => intro a m hma _; exact hma
  | cons x xs ih =>
      intro a m hma hmem
      have hx : m ≤ x := hmem x (List.mem_cons_self x xs)
      exact ih (min a x) m (le_min hma hx) (fun y hy => hmem y (List.mem_cons_of_mem x hy))

/-- A `min`-fold is bounded by every list element. -/
lemma foldl_min_le_mem : ∀ (l : List ℚ) (a x : ℚ), x ∈ l → l.foldl min a ≤ x := by
  intro l
  induction l with
  | nil => intro a x hx; exact absurd hx (List.not_mem_nil x)
  | cons y ys ih =>
      intro a x hx
      rcases List.mem_cons.mp hx with rfl | hx'
      · calc (x :: ys).foldl min a = ys.foldl min (min a x) := rfl
          _ ≤ min a x := foldl_min_le_init ys (min a x)
          _ ≤ x := min_le_right a x
      · exact ih (min a y) x hx'

/-- A `min`-fold returns its initial accumulator or some list element. -/
lemma foldl_min_mem : ∀ (l : List ℚ) (a : ℚ), l.foldl min a = a ∨ l.foldl min a ∈ l := by
  intro l
  induction l with
  | nil => intro a; exact Or.inl rfl
  | cons x xs ih =>
      intro a
      rcases ih (min a x) with h | h
      · rcases min_choice a x with hax | hax
        · exact Or.inl (by rw [List.foldl_cons, h, hax])
        · refine Or.inr ?_
          rw [List.foldl_cons, h, hax]
          exact List.mem_cons_self x xs
      · exact Or.inr (List.mem_cons_of_mem x h)

/-- `minList` is a lower bound of every element of the list. -/
lemma minList_le {l : List ℚ} {x : ℚ} (hx : x ∈ l) : minList l ≤ x := by
  cases l with
  | nil => exact absurd hx (List.not_mem_nil x)
  | cons y ys =>
      rcases List.mem_cons.mp hx with rfl | hx'
      · exact foldl_min_le_init ys x
      · exact foldl_min_le_mem ys y x hx'

/-- On a nonempty list, `minList` is attained by some element. -/
lemma minList_mem {l : List ℚ} (hl : l ≠ []) : minList l ∈ l := by
  cases l with
  | nil => exact absurd rfl hl
  | cons x xs =>
      rcases foldl_min_mem xs x with h | h
      · rw [minList, h]; exact List.mem_cons_self x xs
      · exact List.mem_cons_of_mem x h

/-- The edge ring of a nonempty vertex list has one edge per vertex. -/
lemma ringEdges_length (v : Pt) (vs : List Pt) :
    (ringEdges (v :: vs)).length = vs.length + 1 := by
  simp [ringEdges]

/-- C3: for `width ≥ 0`, `transition` returns `inner_res` whenever
`distance ≤ 0` and `outer_res` whenever `distance ≥ width` with
`width > 0`; when `width = 0` it is the step function at `distance = 0`
whose `distance ≤ 0` branch takes precedence, returning `inner_res` at 0. -/
theorem transition_boundary_cases (inner outer width : ℚ) (hw : 0 ≤ width) :
    (∀ d : ℚ, d ≤ 0 → transition d inner outer width = inner) ∧
    (∀ d : ℚ, 0 < width → width ≤ d → transition d inner outer width = outer) ∧
    (width = 0 →
      ∀ d : ℚ, transition d inner outer width = if d ≤ 0 then inner else outer) := by
  refine ⟨fun d hd => ?_, fun d hwpos hwd => ?_, fun hw0 d => ?_⟩
  · simp [transition, hd]
  · have hd0 : ¬ d ≤ 0 := by linarith
    simp [transition, hd0, hwd]
  · subst hw0
    by_cases hd : d ≤ 0
    · simp [transition, hd]
    · have : (0 : ℚ) ≤ d := le_of_not_le hd
      simp [transition, hd, this]

/-- Witness for C3 at `inner = 2`, `outer = 5`, `width = 0`. -/
theorem transition_boundary_cases_witness :
    transition (-1) 2 5 0 = 2 ∧ transition 1 2 5 0 = (if (1:ℚ) ≤ 0 then 2 else 5) := by
  have h := transition_boundary_cases 2 5 0 (by norm_num)
  exact ⟨h.1 (-1) (by norm_num), h.2.2 rfl 1⟩

/-- The smoothstep interpolant stays inside `[0, 1]` on `[0, 1]`. -/
lemma smoothstep_mem_unit {t : ℚ} (h0 : 0 ≤ t) (h1 : t ≤ 1) :
    0 ≤ smoothstep t ∧ smoothstep t ≤ 1 := by
  constructor
  · have : smoothstep t = t ^ 2 * (3 - 2 * t) := by simp only [smoothstep]; ring
    rw [this]
    exact mul_nonneg (sq_nonneg t) (by linarith)
  · have : 1 - smoothstep t = (1 - t) ^ 2 * (1 + 2 * t) := by simp only [smoothstep]; ring
    nlinarith [sq_nonneg (1 - t)]

/-- The smoothstep interpolant is monotone on `[0, 1]`. -/
lemma smoothstep_mono {t₁ t₂ : ℚ} (h0 : 0 ≤ t₁) (h12 : t₁ ≤ t₂) (h1 : t₂ ≤ 1) :
    smoothstep t₁ ≤ smoothstep t₂ := by
  have key : smoothstep t₂ - smoothstep t₁ =
      (t₂ - t₁) * (3 * (t₁ + t₂) - 2 * (t₁ ^ 2 + t₁ * t₂ + t₂ ^ 2)) := by
    simp only [smoothstep]; ring
  nlinarith [mul_nonneg (sub_nonneg.mpr h12) (mul_nonneg h0 (sub_nonneg.mpr h1)),
    mul_nonneg (sub_nonneg.mpr h12) (mul_nonneg (h0.trans h12) (sub_nonneg.mpr h1)),
    mul_nonneg (sub_nonneg.mpr h12) (mul_nonneg h0 h0),
    sq_nonneg (t₂ - t₁), mul_nonneg h0 (h0.trans h12)]

/-- The transition output always lies between `min inner outer` and
`max inner outer`, with no side condition on the width. -/
lemma transition_bounds (d inner outer width : ℚ) :
    min inner outer ≤ transition d inner outer width ∧
      transition d inner outer width ≤ max inner outer := by
  unfold transition
  by_cases hd : d ≤ 0
  · simp [hd, min_le_left, le_max_left]
  · by_cases hwd : width ≤ d
    · simp [hd, hwd, min_le_right, le_max_right]
    · simp only [hd, hwd, if_false, if_true, if_neg, ite_false]
      have hdpos : 0 < d := lt_of_not_le hd
      have hwpos : 0 < width := lt_of_le_of_lt hdpos.le (lt_of_not_le hwd)
      have ht0 : 0 ≤ d / width := div_nonneg hdpos.le hwpos.le
      have ht1 : d / width ≤ 1 := by
        rw [div_le_one hwpos]; exact (lt_of_not_le hwd).le
      obtain ⟨hs0, hs1⟩ := smoothstep_mem_unit ht0 ht1
      set s := smoothstep (d / width) with hs
      constructor
      · rcases le_total inner outer with hio | hio
        · have : 0 ≤ (outer - inner) * s := mul_nonneg (by linarith) hs0
          calc min inner outer ≤ inner := min_le_left _ _
            _ ≤ inner + (outer - inner) * s := by linarith
        · have : (outer - inner) * s ≥ (outer - inner) * 1 := by
            apply mul_le_mul_of_nonpos_left hs1 (by linarith)
          calc min inner outer ≤ outer := min_le_right _ _
            _ ≤ inner + (outer - inner) * s := by nlinarith
      · rcases le_total inner outer with hio | hio
        · have : (outer - inner) * s ≤ (outer - inner) * 1 :=
            mul_le_mul_of_nonneg_left hs1 (by linarith)
          calc inner + (outer - inner) * s ≤ outer := by linarith
            _ ≤ max inner outer := le_max_right _ _
        · have : (outer - inner) * s ≤ 0 := mul_nonpos_of_nonpos_of_nonneg (by linarith) hs0
          calc inner + (outer - inner) * s ≤ inner := by linarith
            _ ≤ max inner outer := le_max_left _ _

/-- With `inner ≤ outer` the transition output lies in `[inner, outer]`. -/
lemma transition_between {inner outer : ℚ} (hio : inner ≤ outer) (d width : ℚ) :
    inner ≤ transition d inner outer width ∧ transition d inner outer width ≤ outer := by
  have h := transition_bounds d inner outer width
  rw [min_eq_left hio, max_eq_right hio] at h
  exact h

/-- C4: with `inner_res a ≤ outer_res b` and `width ≥ 0`, the transition is
monotonically non-decreasing in distance; it interpolates between `a` and
`b` (its value always lies in `[a, b]`) and it flattens to zero slope at
both endpoints of the transition zone: its deviation from `a` near
`distance = 0` and from `b` near `distance = width` is bounded by a
quadratic in the distance to that endpoint. -/
theorem transition_monotone (a b w : ℚ) (hab : a ≤ b) (hw : 0 ≤ w) :
    (∀ d₁ d₂ : ℚ, d₁ ≤ d₂ → transition d₁ a b w ≤ transition d₂ a b w) ∧
    (∀ d : ℚ, a ≤ transition d a b w ∧ transition d a b w ≤ b) ∧
    (∀ d : ℚ, 0 < w → 0 ≤ d → d ≤ w →
      transition d a b w - a ≤ 3 * (b - a) * (d / w) ^ 2 ∧
      b - transition d a b w ≤ 3 * (b - a) * ((w - d) / w) ^ 2) := by
  refine ⟨fun d₁ d₂ h12 => ?_, fun d => transition_between hab d w, fun d hwpos hd0 hdw => ?_⟩
  · by_cases h2 : d₂ ≤ 0
    · have h1 : d₁ ≤ 0 := le_trans h12 h2
      simp [transition, h1, h2]
    · by_cases h1 : d₁ ≤ 0
      · have e1 : transition d₁ a b w = a := by simp [transition, h1]
        rw [e1]; exact (transition_between hab d₂ w).1
      · by_cases hw1 : w ≤ d₁
        · have hw2 : w ≤ d₂ := le_trans hw1 h12
          simp [transition, h1, h2, hw1, hw2]
        · by_cases hw2 : w ≤ d₂
          · have e2 : transition d₂ a b w = b := by simp [transition, h2, hw2]
            rw [e2]; exact (transition_between hab d₁ w).2
          · have hd1pos : 0 < d₁ := lt_of_not_le h1
            have hwpos : 0 < w := lt_of_le_of_lt hd1pos.le (lt_of_not_le hw1)
            have e1 : transition d₁ a b w = a + (b - a) * smoothstep (d₁ / w) := by
              simp [transition, h1, hw1]
            have e2 : transition d₂ a b w = a + (b - a) * smoothstep (d₂ / w) := by
              simp [transition, h2, hw2]
            rw [e1, e2]
            have hmono := smoothstep_mono (div_nonneg hd1pos.le hwpos.le)
              ((div_le_div_right hwpos).mpr h12)
              (by rw [div_le_one hwpos]; exact (lt_of_not_le hw2).le)
            have : (b - a) * smoothstep (d₁ / w) ≤ (b - a) * smoothstep (d₂ / w) :=
              mul_le_mul_of_nonneg_left hmono (by linarith)
            linarith
  · set t := d / w with ht
    have ht0 : 0 ≤ t := div_nonneg hd0 hwpos.le
    have ht1 : t ≤ 1 := by rw [ht, div_le_one hwpos]; exact hdw
    have hwd : (w - d) / w = 1 - t := by
      rw [ht, sub_div, div_self hwpos.ne']
    constructor
    · by_cases h1 : d ≤ 0
      · have : transition d a b w = a := by simp [transition, h1]
        rw [this]
        nlinarith [mul_nonneg (sub_nonneg.mpr hab) (sq_nonneg (d / w))]
      · by_cases h2 : w ≤ d
        · have hdw' : d = w := le_antisymm hdw h2
          have e : transition d a b w = b := by simp [transition, h1, h2]
          have ht' : t = 1 := by rw [ht, hdw', div_self hwpos.ne']
          rw [e, ht']; nlinarith
        · have e : transition d a b w = a + (b - a) * smoothstep t := by
            simp [transition, h1, h2, ht]
          rw [e]
          have hs : smoothstep t ≤ 3 * t ^ 2 := by
            simp only [smoothstep]; nlinarith [mul_nonneg (mul_nonneg ht0 ht0) ht0]
          nlinarith [mul_le_mul_of_nonneg_left hs (sub_nonneg.mpr hab)]
    · rw [hwd]
      by_cases h1 : d ≤ 0
      · have e : transition d a b w = a := by simp [transition, h1]
        have ht' : t ≤ 0 := div_nonpos_of_nonpos_of_nonneg h1 hwpos.le
        have ht'' : t = 0 := le_antisymm ht' ht0
        rw [e, ht'']; nlinarith
      · by_cases h2 : w ≤ d
        · have e : transition d a b w = b := by simp [transition, h1, h2]
          rw [e]
          nlinarith [mul_nonneg (sub_nonneg.mpr hab) (sq_nonneg (1 - t))]
        · have e : transition d a b w = a + (b - a) * smoothstep t := by
            simp [transition, h1, h2, ht]
          rw [e]
          have hs : 1 - smoothstep t ≤ 3 * (1 - t) ^ 2 := by
            simp only [smoothstep]; nlinarith [mul_nonneg ht0 (sub_nonneg.mpr ht1)]
          nlinarith [mul_le_mul_of_nonneg_left hs (sub_nonneg.mpr hab)]

/-- Witness for C4 at `a = 1`, `b = 2`, `w = 4`, distances 1 and 2. -/
theorem transition_monotone_witness :
    transition 1 1 2 4 ≤ transition 2 1 2 4 ∧
      (1 : ℚ) ≤ transition 3 1 2 4 ∧
      transition 1 1 2 4 - 1 ≤ 3 * (2 - 1) * ((1 : ℚ) / 4) ^ 2 := by
  have h := transition_monotone 1 2 4 (by norm_num) (by norm_num)
  exact ⟨h.1 1 2 (by norm_num), (h.2.1 3).1,
    (h.2.2 1 (by norm_num) (by norm_num) (by norm_num)).1⟩

/-- C1 counterexample: with `background_resolution = 1` and a single
influencing circular region of resolution `5` (radius 1, transition
width 1, query point at the region's center, so its signed distance is
`-1 < 1`), the combined value is `1`, strictly below the minimum
resolution (`5`) among the regions influencing the point — refuting the
claimed lower bound when the background is finer than the regions. -/
theorem combineField_lower_bound_cex :
    (Region.circle ⟨"fine", 5, 1, ⟨0, 0⟩, 1⟩).signedDistance
        ⟨fun _ _ => 0, fun _ _ _ => 0, fun _ _ => false⟩ ⟨0, 0⟩ <
      (Region.circle ⟨"fine", 5, 1, ⟨0, 0⟩, 1⟩).transition_width ∧
    combineField ⟨fun _ _ => 0, fun _ _ _ => 0, fun _ _ => false⟩ 1
        [Region.circle ⟨"fine", 5, 1, ⟨0, 0⟩, 1⟩] ⟨0, 0⟩ <
      (Region.circle ⟨"fine", 5, 1, ⟨0, 0⟩, 1⟩).resolution := by
  constructor
  · show (0 : ℚ) - 1 < 1
    norm_num
  · show List.foldl _ 1 _ < 5
    simp only [List.foldl, Region.signedDistance, Region.transition_width,
      Region.contribution, Region.resolution, combineField]
    norm_num [transition]

/-- C1 (amended): at every point the combined value equals the `min`-fold
of the background resolution with the contributions of exactly those
regions whose influence zone reaches the point
(`signed_distance < transition_width`); consequently it never exceeds
`background_resolution` and never falls below any common lower bound of the
background resolution and the resolutions of the influencing regions (in
particular, never below `min background_resolution (min of those
resolutions)`). -/
theorem combineField_minimum_bounds (geo : Geo) (bg : ℚ) (rs : List Region) (p : Pt) :
    combineField geo bg rs p =
      ((rs.filter (fun r => decide (r.signedDistance geo p < r.transition_width))).map
        (fun r => r.contribution geo bg p)).foldl min bg ∧
    combineField geo bg rs p ≤ bg ∧
    (∀ m : ℚ, m ≤ bg →
      (∀ r ∈ rs, r.signedDistance geo p < r.transition_width → m ≤ r.resolution) →
      m ≤ combineField geo bg rs p) := by
  have heq : combineField geo bg rs p =
      ((rs.filter (fun r => decide (r.signedDistance geo p < r.transition_width))).map
        (fun r => r.contribution geo bg p)).foldl min bg := by
    unfold combineField
    have := foldl_combine (fun r => decide (r.signedDistance geo p < r.transition_width))
      (fun r => r.contribution geo bg p) rs bg
    simpa using this
  refine ⟨heq, ?_, ?_⟩
  · rw [heq]; exact foldl_min_le_init _ _
  · intro m hmbg hmres
    rw [heq]
    apply le_foldl_min _ _ _ hmbg
    intro x hx
    obtain ⟨r, hrmem, hrc⟩ := List.mem_map.mp hx
    obtain ⟨hrs, hinf⟩ := List.mem_filter.mp hrmem
    have hinf' : r.signedDistance geo p < r.transition_width := of_decide_eq_true hinf
    have hres : m ≤ r.resolution := hmres r hrs hinf'
    have hbound := (transition_bounds (r.signedDistance geo p) r.resolution bg
      r.transition_width).1
    have : m ≤ min r.resolution bg := le_min hres hmbg
    rw [← hrc]
    exact le_trans this hbound

/-- Witness for C1 (amended) at a single influencing region of resolution 2
with background 3: the combined value is bounded by the background and
below by 2. -/
theorem combineField_minimum_bounds_witness :
    combineField ⟨fun _ _ => 0, fun _ _ _ => 0, fun _ _ => false⟩ 3
        [Region.circle ⟨"a", 2, 1, ⟨0, 0⟩, 1⟩] ⟨0, 0⟩ ≤ 3 ∧
      (2 : ℚ) ≤ combineField ⟨fun _ _ => 0, fun _ _ _ => 0, fun _ _ => false⟩ 3
        [Region.circle ⟨"a", 2, 1, ⟨0, 0⟩, 1⟩] ⟨0, 0⟩ := by
  have h := combineField_minimum_bounds ⟨fun _ _ => 0, fun _ _ _ => 0, fun _ _ => false⟩ 3
    [Region.circle ⟨"a", 2, 1, ⟨0, 0⟩, 1⟩] ⟨0, 0⟩
  refine ⟨h.2.1, h.2.2 2 (by norm_num) ?_⟩
  intro r hr _
  rcases List.mem_singleton.mp hr with rfl
  show (2 : ℚ) ≤ 2
  exact le_refl 2

/-- C2: the combined field is invariant under permutation of the regions
list: the combining operation is a conditional `min`, which is
right-commutative, so any two permutations of the same region set fold to
the same value at every point. -/
theorem combineField_perm (geo : Geo) (bg : ℚ) {rs rs' : List Region}
    (h : rs.Perm rs') (p : Pt) :
    combineField geo bg rs p = combineField geo bg rs' p := by
  unfold combineField
  apply h.foldl_eq'
  intro x _ y _ z
  by_cases hx : x.signedDistance geo p < x.transition_width <;>
    by_cases hy : y.signedDistance geo p < y.transition_width <;>
      simp [hx, hy, min_assoc, min_comm, min_left_comm]

/-- Witness for C2: swapping two concrete regions leaves the combined value
unchanged. -/
theorem combineField_perm_witness :
    combineField ⟨fun _ _ => 0, fun _ _ _ => 0, fun _ _ => false⟩ 3
        [Region.circle ⟨"a", 2, 1, ⟨0, 0⟩, 1⟩, Region.circle ⟨"b", 1, 1, ⟨0, 0⟩, 1⟩] ⟨0, 0⟩ =
      combineField ⟨fun _ _ => 0, fun _ _ _ => 0, fun _ _ => false⟩ 3
        [Region.circle ⟨"b", 1, 1, ⟨0, 0⟩, 1⟩, Region.circle ⟨"a", 2, 1, ⟨0, 0⟩, 1⟩] ⟨0, 0⟩ :=
  combineField_perm ⟨fun _ _ => 0, fun _ _ _ => 0, fun _ _ => false⟩ 3
    (List.Perm.swap (Region.circle ⟨"b", 1, 1, ⟨0, 0⟩, 1⟩)
      (Region.circle ⟨"a", 2, 1, ⟨0, 0⟩, 1⟩) []) ⟨0, 0⟩

/-- C5: for a circular region of radius `R > 0`, resolution `r`, transition
width 0 and a background no finer than `r`: the signed distance fed to the
transition function is the great-circle distance to the center minus the
radius; the combined field at the region's center (where the geodesic
distance vanishes) equals `r`; and at any point at geodesic distance
`R + 1` km from the center it equals the background resolution. -/
theorem circular_region_hard_edge (geo : Geo) (c : CircularRegion) (bg : ℚ)
    (hw : c.transition_width = 0) (hr : 0 < c.radius) (hres : c.resolution ≤ bg)
    (p : Pt) (hc : geo.gdist c.center c.center = 0)
    (hp : geo.gdist p c.center = c.radius + 1) :
    (∀ q : Pt, (Region.circle c).signedDistance geo q = geo.gdist q c.center - c.radius) ∧
    combineField geo bg [Region.circle c] c.center = c.resolution ∧
    combineField geo bg [Region.circle c] p = bg := by
  refine ⟨fun q => rfl, ?_, ?_⟩
  · have hsd : (Region.circle c).signedDistance geo c.center = -c.radius := by
      show geo.gdist c.center c.center - c.radius = -c.radius
      rw [hc]; ring
    have hinf : (Region.circle c).signedDistance geo c.center <
        (Region.circle c).transition_width := by
      show (Region.circle c).signedDistance geo c.center < c.transition_width
      rw [hsd, hw]; linarith
    have hcontrib : (Region.circle c).contribution geo bg c.center = c.resolution := by
      show transition ((Region.circle c).signedDistance geo c.center)
        c.resolution bg c.transition_width = c.resolution
      rw [hsd]
      exact (transition_boundary_cases c.resolution bg c.transition_width
        (le_of_eq hw.symm)).1 (-c.radius) (by linarith)
    show List.foldl _ bg _ = c.resolution
    simp only [List.foldl]
    rw [if_pos hinf, hcontrib, min_eq_right hres]
  · have hsd : (Region.circle c).signedDistance geo p = 1 := by
      show geo.gdist p c.center - c.radius = 1
      rw [hp]; ring
    have hninf : ¬ (Region.circle c).signedDistance geo p <
        (Region.circle c).transition_width := by
      show ¬ (Region.circle c).signedDistance geo p < c.transition_width
      rw [hsd, hw]; norm_num
    show List.foldl _ bg _ = bg
    simp only [List.foldl]
    rw [if_neg hninf]

/-- Witness for C5 with a concrete region of radius 1, resolution 1,
background 2, and a distance function returning 0 at the center and 2
elsewhere. -/
theorem circular_region_hard_edge_witness :
    combineField ⟨fun q _ => if q.lat = 0 then 0 else 2, fun _ _ _ => 0, fun _ _ => false⟩ 2
        [Region.circle ⟨"c", 1, 0, ⟨0, 0⟩, 1⟩] ⟨0, 0⟩ = 1 ∧
      combineField ⟨fun q _ => if q.lat = 0 then 0 else 2, fun _ _ _ => 0, fun _ _ => false⟩ 2
        [Region.circle ⟨"c", 1, 0, ⟨0, 0⟩, 1⟩] ⟨1, 0⟩ = 2 := by
  have h := circular_region_hard_edge
    ⟨fun q _ => if q.lat = 0 then 0 else 2, fun _ _ _ => 0, fun _ _ => false⟩
    ⟨"c", 1, 0, ⟨0, 0⟩, 1⟩ 2 rfl (by norm_num) (by norm_num) ⟨1, 0⟩
    (by norm_num) (by norm_num)
  exact ⟨h.2.1, h.2.2⟩

/-- C6: for a polygon region with at least 3 vertices, the contribution at
any query point feeds the signed distance to the same transition function
as the circular region; the signed distance is the negated boundary
distance when the membership test reports the point inside and the positive
boundary distance otherwise; and the boundary distance is the minimum
geodesic distance over the edges of the implicitly closed vertex ring: it
is a lower bound of every edge distance and is attained by some edge. -/
theorem polygon_contribution_spec (geo : Geo) (pg : PolygonRegion) (p : Pt)
    (hlen : 3 ≤ pg.vertices.length) (bg : ℚ) :
    (Region.polygon pg).contribution geo bg p =
      transition ((Region.polygon pg).signedDistance geo p)
        pg.resolution bg pg.transition_width ∧
    (geo.inside p pg.vertices = true →
      (Region.polygon pg).signedDistance geo p = -(boundaryDistance geo pg.vertices p)) ∧
    (geo.inside p pg.vertices = false →
      (Region.polygon pg).signedDistance geo p = boundaryDistance geo pg.vertices p) ∧
    (∀ e ∈ ringEdges pg.vertices,
      boundaryDistance geo pg.vertices p ≤ geo.edgeDist p e.1 e.2) ∧
    (∃ e ∈ ringEdges pg.vertices,
      boundaryDistance geo pg.vertices p = geo.edgeDist p e.1 e.2) := by
  refine ⟨rfl, fun hin => ?_, fun hout => ?_, fun e he => ?_, ?_⟩
  · show (if geo.inside p pg.vertices then _ else _) = _
    rw [hin]; rfl
  · show (if geo.inside p pg.vertices then _ else _) = _
    rw [hout]; rfl
  · exact minList_le (List.mem_map.mpr ⟨e, he, rfl⟩)
  · have hne : ringEdges pg.vertices ≠ [] := by
      cases hvs : pg.vertices with
      | nil => rw [hvs] at hlen; simp at hlen
      | cons v vs =>
          intro hcontra
          have := ringEdges_length v vs
          rw [hcontra] at this
          simp at this
    have hmapne : (ringEdges pg.vertices).map (fun e => geo.edgeDist p e.1 e.2) ≠ [] := by
      simpa using hne
    have hmem := minList_mem hmapne
    obtain ⟨e, he, hval⟩ := List.mem_map.mp hmem
    exact ⟨e, he, hval.symm⟩

/-- Witness for C6 on a concrete triangle with a synthetic edge-distance
function: the boundary distance is below the first edge's distance and the
outside signed distance is the boundary distance. -/
theorem polygon_contribution_spec_witness :
    (Region.polygon ⟨"t", 1, 1, [⟨0, 0⟩, ⟨0, 1⟩, ⟨1, 0⟩]⟩).signedDistance
        ⟨fun _ _ => 0, fun _ a b => a.lat + a.lon + b.lat + b.lon, fun _ _ => false⟩ ⟨5, 5⟩ =
      boundaryDistance
        ⟨fun _ _ => 0, fun _ a b => a.lat + a.lon + b.lat + b.lon, fun _ _ => false⟩
        [⟨0, 0⟩, ⟨0, 1⟩, ⟨1, 0⟩] ⟨5, 5⟩ ∧
    boundaryDistance
        ⟨fun _ _ => 0, fun _ a b => a.lat + a.lon + b.lat + b.lon, fun _ _ => false⟩
        [⟨0, 0⟩, ⟨0, 1⟩, ⟨1, 0⟩] ⟨5, 5⟩ ≤ 1 := by
  have h := polygon_contribution_spec
    ⟨fun _ _ => 0, fun _ a b => a.lat + a.lon + b.lat + b.lon, fun _ _ => false⟩
    ⟨"t", 1, 1, [⟨0, 0⟩, ⟨0, 1⟩, ⟨1, 0⟩]⟩ ⟨5, 5⟩ (by norm_num) 2
  refine ⟨h.2.2.1 rfl, ?_⟩
  have hedge := h.2.2.2.1 (⟨⟨0, 0⟩, ⟨0, 1⟩⟩ : Pt × Pt) (by simp [ringEdges])
  simpa using hedge

/-- C7: if any region has a non-positive resolution or a negative
transition width, synthesis fails with a `ConfigurationError` naming an
offending region and returns no field at all (the grid is never
evaluated); conversely, for a configuration whose regions all satisfy the
invariants, synthesis returns the full field with no error. -/
theorem synthesizeField_validation (geo : Geo) (cfg : Config) (lats lons : List ℚ) :
    ((∃ r ∈ cfg.regions, r.resolution ≤ 0 ∨ r.transition_width < 0) →
      ∃ r ∈ cfg.regions, (r.resolution ≤ 0 ∨ r.transition_width < 0) ∧
        synthesizeField geo cfg lats lons =
          Except.error (ConfigurationError.invalidResolutionParameters r.name)) ∧
    ((∀ r ∈ cfg.regions, 0 < r.resolution ∧ 0 ≤ r.transition_width) →
      synthesizeField geo cfg lats lons =
        Except.ok (lats.map (fun la => lons.map (fun lo =>
          combineField geo cfg.background_resolution cfg.regions ⟨la, lo⟩)))) := by
  constructor
  · rintro ⟨r, hr, hbad⟩
    have hsome : (findInvalidRegion cfg.regions).isSome := by
      rw [findInvalidRegion, List.find?_isSome]
      exact ⟨r, hr, by rw [Region.invalidParams]; exact decide_eq_true hbad⟩
    obtain ⟨r0, hr0⟩ := Option.isSome_iff_exists.mp hsome
    refine ⟨r0, List.mem_of_find?_eq_some hr0, ?_, ?_⟩
    · have := List.find?_some hr0
      rwa [Region.invalidParams, decide_eq_true_eq] at this
    · unfold synthesizeField
      rw [hr0]
  · intro hgood
    have hnone : findInvalidRegion cfg.regions = none := by
      rw [findInvalidRegion, List.find?_eq_none]
      intro r hr
      rw [Region.invalidParams, decide_eq_true_eq]
      push_neg
      obtain ⟨h1, h2⟩ := hgood r hr
      exact ⟨h1, h2⟩
    unfold synthesizeField
    rw [hnone]

/-- Witness for C7: a configuration with one zero-resolution region fails
naming that region; a valid one-region configuration synthesizes the field. -/
theorem synthesizeField_validation_witness :
    synthesizeField ⟨fun _ _ => 0, fun _ _ _ => 0, fun _ _ => false⟩
        ⟨3, 1, [Region.circle ⟨"bad", 0, 0, ⟨0, 0⟩, 1⟩]⟩ [] [] =
      Except.error (ConfigurationError.invalidResolutionParameters "bad") ∧
    synthesizeField ⟨fun _ _ => 0, fun _ _ _ => 0, fun _ _ => false⟩
        ⟨3, 1, [Region.circle ⟨"ok", 2, 0, ⟨0, 0⟩, 1⟩]⟩ [] [] = Except.ok [] := by
  constructor
  · have h := (synthesizeField_validation ⟨fun _ _ => 0, fun _ _ _ => 0, fun _ _ => false⟩
      ⟨3, 1, [Region.circle ⟨"bad", 0, 0, ⟨0, 0⟩, 1⟩]⟩ [] []).1
      ⟨Region.circle ⟨"bad", 0, 0, ⟨0, 0⟩, 1⟩, List.mem_singleton.mpr rfl,
        Or.inl (by norm_num [Region.resolution])⟩
    obtain ⟨r, hr, _, heq⟩ := h
    rcases List.mem_singleton.mp hr with rfl
    exact heq
  · have h := (synthesizeField_validation ⟨fun _ _ => 0, fun _ _ _ => 0, fun _ _ => false⟩
      ⟨3, 1, [Region.circle ⟨"ok", 2, 0, ⟨0, 0⟩, 1⟩]⟩ [] []).2 ?_
    · simpa using h
    · intro r hr
      rcases List.mem_singleton.mp hr with rfl
      constructor
      · show (0 : ℚ) < 2
        norm_num
      · show (0 : ℚ) ≤ 0
        norm_num

/-- C8: field synthesis is deterministic — the same configuration always
produces the identical field (synthesis is a pure function in the model) —
and every successfully synthesized grid value is the field combiner applied
to the configuration and that point's own coordinates alone, independent of
all other grid points. -/
theorem synthesizeField_deterministic (geo : Geo) (cfg : Config) (lats lons : List ℚ) :
    synthesizeField geo cfg lats lons = synthesizeField geo cfg lats lons ∧
    (∀ field, synthesizeField geo cfg lats lons = Except.ok field →
      ∀ (i j : ℕ) (hi : i < lats.length) (hj : j < lons.length),
        (field[i]?.bind fun row => row[j]?) =
          some (combineField geo cfg.background_resolution cfg.regions
            ⟨lats[i], lons[j]⟩)) := by
  refine ⟨rfl, fun field hfield i j hi hj => ?_⟩
  unfold synthesizeField at hfield
  cases hfind : findInvalidRegion cfg.regions with
  | some r => rw [hfind] at hfield; exact absurd hfield (by simp)
  | none =>
      rw [hfind] at hfield
      have hfe : field = lats.map (fun la => lons.map (fun lo =>
          combineField geo cfg.background_resolution cfg.regions ⟨la, lo⟩)) := by
        cases hfield; rfl
      subst hfe
      simp [List.getElem?_map, List.getElem?_eq_getElem hi, List.getElem?_eq_getElem hj]

/-- Witness for C8 on a one-point grid with no regions: the synthesized
value at index (0,0) is the background resolution. -/
theorem synthesizeField_deterministic_witness :
    (([[(3 : ℚ)]] : List (List ℚ))[0]?.bind fun row => row[0]?) =
      some (combineField ⟨fun _ _ => 0, fun _ _ _ => 0, fun _ _ => false⟩ 3 [] ⟨0, 0⟩) := by
  have h := (synthesizeField_deterministic ⟨fun _ _ => 0, fun _ _ _ => 0, fun _ _ => false⟩
    ⟨3, 1, []⟩ [0] [0]).2 [[3]] rfl 0 0 (by norm_num) (by norm_num)
  simpa using h

/-- The scan stops at the first polygon region, whatever was accumulated
from earlier circle regions. -/
lemma inferCutLoop_first_polygon (r : RegionCfg) (hr : r.type = "polygon") :
    ∀ (pre : List RegionCfg), (∀ q ∈ pre, q.type ≠ "polygon") →
      ∀ (post : List RegionCfg) (acc : Option CutSpec),
        inferCutLoop acc (pre ++ r :: post) = some (polygonCut r) := by
  intro pre
  induction pre with
  | nil =>
      intro _ post acc
      simp [inferCutLoop, hr]
  | cons q qs ih =>
      intro hq post acc
      have hqp : ¬ q.type = "polygon" := hq q (List.mem_cons_self q qs)
      have hrest : ∀ x ∈ qs, x.type ≠ "polygon" :=
        fun x hx => hq x (List.mem_cons_of_mem q hx)
      by_cases hqc : q.type = "circle"
      · simpa [inferCutLoop, hqp, hqc] using ih hrest post (some (circleCut q))
      · simpa [inferCutLoop, hqp, hqc] using ih hrest post acc

/-- Regions that are neither polygons nor circles leave the accumulator
untouched. -/
lemma inferCutLoop_skip (rs : List RegionCfg)
    (h : ∀ q ∈ rs, q.type ≠ "polygon" ∧ q.type ≠ "circle") :
    ∀ acc, inferCutLoop acc rs = acc := by
  induction rs with
  | nil => intro acc; rfl
  | cons q qs ih =>
      intro acc
      have hq := h q (List.mem_cons_self q qs)
      have hrest : ∀ x ∈ qs, x.type ≠ "polygon" ∧ x.type ≠ "circle" :=
        fun x hx => h x (List.mem_cons_of_mem q hx)
      simpa [inferCutLoop, hq.1, hq.2] using ih hrest acc

/-- With no polygon region anywhere and no circle region after it, the last
circle region decides the scan. -/
lemma inferCutLoop_last_circle (c : RegionCfg) (hc : c.type = "circle") :
    ∀ (pre : List RegionCfg), ∀ (post : List RegionCfg),
      (∀ q ∈ pre ++ c :: post, q.type ≠ "polygon") →
      (∀ q ∈ post, q.type ≠ "circle") →
      ∀ acc, inferCutLoop acc (pre ++ c :: post) = some (circleCut c) := by
  intro pre
  induction pre with
  | nil =>
      intro post hnp hnc acc
      have hcp : ¬ c.type = "polygon" := hnp c (by simp)
      have hpost : ∀ q ∈ post, q.type ≠ "polygon" ∧ q.type ≠ "circle" :=
        fun q hq => ⟨hnp q (by simp [hq]), hnc q hq⟩
      simpa [inferCutLoop, hcp, hc] using inferCutLoop_skip post hpost (some (circleCut c))
  | cons q qs ih =>
      intro post hnp hnc acc
      have hqp : ¬ q.type = "polygon" := hnp q (by simp)
      have hrest : ∀ x ∈ qs ++ c :: post, x.type ≠ "polygon" := by
        intro x hx
        exact hnp x (by simp at hx ⊢; tauto)
      by_cases hqc : q.type = "circle"
      · simpa [inferCutLoop, hqp, hqc] using ih post hrest hnc (some (circleCut q))
      · simpa [inferCutLoop, hqp, hqc] using ih post hrest hnc acc

/-- C9: when no regional cut is configured, the CLI infers one from the
regions in an order-dependent way: the first region typed "polygon" wins
and stops the scan, its vertex list becoming the cut polygon with the
arithmetic mean of the vertex latitudes and longitudes as inside point
(no inside point when the vertex list is empty); when no polygon region
exists, the last region typed "circle" wins, with its center as inside
point and its radius times 1000 (kilometers to meters), the radius
defaulting to 100 when absent. -/
theorem inferRegionalCut_spec (rs : List RegionCfg) :
    (∀ pre r post, rs = pre ++ r :: post → r.type = "polygon" →
      (∀ q ∈ pre, q.type ≠ "polygon") →
      inferRegionalCut rs = some (CutSpec.custom r.polygon
        (if r.polygon.isEmpty then none
         else some ((r.polygon.map Prod.fst).sum / (r.polygon.length : ℚ),
                    (r.polygon.map Prod.snd).sum / (r.polygon.length : ℚ))))) ∧
    ((∀ q ∈ rs, q.type ≠ "polygon") →
      ∀ pre c post, rs = pre ++ c :: post → c.type = "circle" →
      (∀ q ∈ post, q.type ≠ "circle") →
      inferRegionalCut rs = some (CutSpec.circle c.center ((c.radius.getD 100) * 1000))) := by
  constructor
  · rintro pre r post rfl hr hpre
    rw [inferRegionalCut, inferCutLoop_first_polygon r hr pre hpre post none]
    rfl
  · rintro hnp pre c post rfl hc hpost
    rw [inferRegionalCut, inferCutLoop_last_circle c hc pre post hnp hpost none]
    rfl

/-- Witness for C9: a circle followed by two polygons selects the first
polygon with its centroid; a list with two circles and no polygon selects
the last circle, converting its radius to meters. -/
theorem inferRegionalCut_spec_witness :
    inferRegionalCut [⟨"circle", [], some (1, 2), some 5⟩,
        ⟨"polygon", [(0, 0), (0, 2)], none, none⟩, ⟨"polygon", [(9, 9)], none, none⟩] =
      some (CutSpec.custom [(0, 0), (0, 2)] (some (0, 1))) ∧
    inferRegionalCut [⟨"circle", [], some (1, 2), some 5⟩, ⟨"other", [], none, none⟩,
        ⟨"circle", [], some (3, 4), none⟩] =
      some (CutSpec.circle (some (3, 4)) 100000) := by
  constructor
  · have h := (inferRegionalCut_spec [⟨"circle", [], some (1, 2), some 5⟩,
      ⟨"polygon", [(0, 0), (0, 2)], none, none⟩, ⟨"polygon", [(9, 9)], none, none⟩]).1
      [⟨"circle", [], some (1, 2), some 5⟩] ⟨"polygon", [(0, 0), (0, 2)], none, none⟩
      [⟨"polygon", [(9, 9)], none, none⟩] rfl rfl (by decide)
    rw [h]
    norm_num
  · have h := (inferRegionalCut_spec [⟨"circle", [], some (1, 2), some 5⟩,
      ⟨"other", [], none, none⟩, ⟨"circle", [], some (3, 4), none⟩]).2
      (by decide) [⟨"circle", [], some (1, 2), some 5⟩, ⟨"other", [], none, none⟩]
      ⟨"circle", [], some (3, 4), none⟩ [] rfl rfl (by decide)
    rw [h]
    norm_num

/-- C10: `_cmd_run` raises `FileNotFoundError` when the configuration path
does not exist — for every configuration content, so before anything is
loaded; raises `FileNotFoundError` when the supplied static file path (the
command-line argument, else the configuration entry) does not exist; and
raises `ValueError` when a static file is supplied and exists but neither a
regional-cut entry nor the region scan yields a cut specification. -/
theorem cmdRun_errors (w : RunWorld) (args : RunArgs) (cfg : RunConfig) :
    (w.configExists = false →
      cmdRun w args cfg = Except.error (CliError.fileNotFound args.config)) ∧
    (∀ s, w.configExists = true → (args.static_file <|> cfg.static_file) = some s →
      w.staticExists s = false →
      cmdRun w args cfg = Except.error (CliError.fileNotFound s)) ∧
    (∀ s, w.configExists = true → (args.static_file <|> cfg.static_file) = some s →
      w.staticExists s = true → cfg.regional_cut = none →
      inferRegionalCut cfg.regions = none →
      cmdRun w args cfg = Except.error CliError.valueError) := by
  refine ⟨fun hce => ?_, fun s hce hs hsx => ?_, fun s hce hs hsx hrc hinf => ?_⟩
  · simp [cmdRun, hce]
  · simp [cmdRun, hce, hs, hsx]
  · simp [cmdRun, hce, hs, hsx, hrc, hinf]

/-- Witness for C10: the three failure scenarios at concrete worlds — a
missing configuration file, a missing static file, and a configuration
with neither a regional cut nor inferable regions. -/
theorem cmdRun_errors_witness :
    cmdRun ⟨false, fun _ => false⟩ ⟨"cfg.json", none⟩ ⟨none, none, []⟩ =
      Except.error (CliError.fileNotFound "cfg.json") ∧
    cmdRun ⟨true, fun _ => false⟩ ⟨"cfg.json", some "static.nc"⟩ ⟨none, none, []⟩ =
      Except.error (CliError.fileNotFound "static.nc") ∧
    cmdRun ⟨true, fun _ => true⟩ ⟨"cfg.json", some "static.nc"⟩ ⟨none, none, []⟩ =
      Except.error CliError.valueError := by
  refine ⟨?_, ?_, ?_⟩
  · exact (cmdRun_errors ⟨false, fun _ => false⟩ ⟨"cfg.json", none⟩ ⟨none, none, []⟩).1 rfl
  · exact (cmdRun_errors ⟨true, fun _ => false⟩ ⟨"cfg.json", some "static.nc"⟩
      ⟨none, none, []⟩).2.1 "static.nc" rfl rfl rfl
  · exact (cmdRun_errors ⟨true, fun _ => true⟩ ⟨"cfg.json", some "static.nc"⟩
      ⟨none, none, []⟩).2.2 "static.nc" rfl rfl rfl rfl rfl

end Mgrid
